import Mathlib

/-!
Verification of the qiniu rust-upload-sdk core against its specification.

The definitions below are a shallow embedding of the relevant parts of the
source code:

* `src/uploader.rs`: `is_client_error_status`, the `should_punish_callback`
  installed by `UploaderBuilder::build`, and the single-shot / multi-part
  path decision of `UploadRequestBuilder::start_uploading` and
  `start_uploading_reader`.
* `src/query.rs`: the `query_with_retry` loop, the response handling of
  `query_for_domains_without_cache` (minimum-TTL cache deadline), the
  first-region projection and domain normalization of
  `HostsQuerier::query_for_up_urls`, and the `CacheKey`
  serialization/deserialization pair.
* `src/reader.rs`: `UploadSourcePartitioner::next_part_reader` for both the
  `Partible` (random access, size known) and `Impartible` (sequential)
  variants.

Machine integers (`u64`, `u16`, `usize`) are modelled as `Nat`: none of the
verified operations can overflow in the source (sizes and counts are far
below `2^64`, and additions that could saturate use `saturating_add`).
Strings are modelled as `List Char`, byte sources as `List Nat`.
-/

/-! ## Status-code classification (`src/uploader.rs:594-616`) -/

/-- The fixed list of distinguished higher-range status codes enumerated in
`is_client_error_status` (`src/uploader.rs:597-609`). -/
def special_status_codes : List Nat :=
  [501, 573, 608, 612, 614, 616, 619, 630, 631, 640, 701]

/-- Embedding of `is_client_error_status` (`src/uploader.rs:594-616`).
`StatusCode::is_client_error()` holds exactly for codes 400..=499.  The Rust
expression is `code.is_client_error() && code != 406 || [...].contains(&code)`
where `&&` binds tighter than `||`. -/
def is_client_error_status (code : Nat) : Bool :=
  (decide (400 ≤ code) && decide (code ≤ 499) && decide (code ≠ 406))
    || special_status_codes.contains code

/-- Shape of `HttpCallError` as far as the punish predicate inspects it:
a reqwest transport error (with its `is_builder()` flag), a status-code
error carrying the numeric code, or any other variant. -/
inductive HttpCallErrorShape where
  | reqwestError (isBuilder : Bool)
  | statusCodeError (statusCode : Nat)
  | otherError
deriving DecidableEq

/-- Embedding of the `should_punish_callback` closure installed by
`UploaderBuilder::build` (`src/uploader.rs:230-236`): builder errors are not
punished, status-code errors are punished iff the code is not classified by
`is_client_error_status`, everything else is punished. -/
def should_punish_callback : HttpCallErrorShape → Bool
  | .reqwestError isBuilder => if isBuilder then false else true
  | .statusCodeError code => !is_client_error_status code
  | .otherError => true

/-! ## The retry loop (`src/query.rs:245-268`)

`query_with_retry` runs `for _ in 0..tries`, selecting a host and running the
operation each iteration; success rewards and returns, a failure calls the
punish predicate: a non-punishable error returns immediately, a punishable
one is recorded as the last error and the loop continues.  After the loop the
recorded error is returned via `.expect("No UC tries error")`, which panics
when no iteration ever ran.

The attempt function is indexed by the attempt number (host selection and the
call against the selected host happen inside one attempt).  The result
records how many attempts were made and how many times punish was called. -/

/-- Result of the retry loop: a success or failure together with the number
of attempts made and of punish-predicate invocations, or the
`expect("No UC tries error")` panic. -/
inductive RetryResult (E T : Type) where
  | success (value : T) (attempts punishCalls : Nat)
  | failure (err : E) (attempts punishCalls : Nat)
  | noTriesPanic
deriving DecidableEq

/-- The loop of `query_with_retry`, with `made` attempts already made,
`rem` iterations remaining and `last` the recorded last error. -/
def query_with_retry_aux (attempt : Nat → Except E T) (punish : E → Bool) :
    Nat → Nat → Option E → RetryResult E T
  | _, 0, none => RetryResult.noTriesPanic
  | made, 0, some e => RetryResult.failure e made made
  | made, rem + 1, _last =>
    match attempt made with
    | Except.ok v => RetryResult.success v (made + 1) made
    | Except.error e =>
      if punish e then
        query_with_retry_aux attempt punish (made + 1) rem (some e)
      else
        RetryResult.failure e (made + 1) (made + 1)

/-- Embedding of `query_with_retry` (`src/query.rs:245-268`). -/
def query_with_retry (tries : Nat) (attempt : Nat → Except E T)
    (punish : E → Bool) : RetryResult E T :=
  query_with_retry_aux attempt punish 0 tries none

/-! ## The source partitioner (`src/reader.rs:332-360`) -/

/-- One step of `UploadSourcePartitioner::next_part_reader` in the `Partible`
case (`src/reader.rs:335-348`): when `offset < totalSize` it yields a part
reader for the range starting at `offset` with requested length `partSize`
(not clipped) and advances the offset by `partSize`; otherwise it yields
nothing and leaves the offset unchanged. -/
def next_part_reader (partSize totalSize offset : Nat) :
    Option (Nat × Nat) × Nat :=
  if offset < totalSize then (some (offset, partSize), offset + partSize)
  else (none, offset)

/-- Iterating `next_part_reader` until it yields nothing, collecting the
`(start, requestedLen)` pairs.  The fuel argument only drives termination:
`totalSize - offset` steps always suffice because each step advances the
offset by `partSize ≥ 1` (for `partSize = 0` the source loop would not
terminate, so every theorem below assumes `0 < partSize`). -/
def collectPartsFuel (partSize totalSize : Nat) : Nat → Nat → List (Nat × Nat)
  | 0, _ => []
  | fuel + 1, offset =>
    match next_part_reader partSize totalSize offset with
    | (some part, nextOffset) =>
      part :: collectPartsFuel partSize totalSize fuel nextOffset
    | (none, _) => []

/-- All parts produced by repeatedly calling `next_part_reader` on a
`Partible` source of size `totalSize`, starting at `offset`. -/
def collectParts (partSize totalSize offset : Nat) : List (Nat × Nat) :=
  collectPartsFuel partSize totalSize (totalSize - offset) offset

/-- The bytes a part reader actually yields when streamed: the reader is
`Cursor::new_pos(source, start).take(len)` (`src/reader.rs:122`), so on a
source with byte list `bs` it yields `(bs.drop start).take len`. -/
def part_reader_bytes (bs : List Nat) (p : Nat × Nat) : List Nat :=
  (bs.drop p.1).take p.2

/-- One step of `next_part_reader` in the `Impartible` case
(`src/reader.rs:349-357`): read up to `partSize` bytes eagerly; an empty
buffer ends the iteration, otherwise the buffer is one part. -/
def collectPartsImpartibleFuel (partSize : Nat) :
    Nat → List Nat → List (List Nat)
  | 0, _ => []
  | fuel + 1, s =>
    if (s.take partSize).isEmpty then []
    else s.take partSize :: collectPartsImpartibleFuel partSize fuel (s.drop partSize)

/-- All parts produced from an `Impartible` (sequential) source holding the
byte list `s`.  Fuel `s.length` suffices: every productive step consumes at
least one byte, and once the remainder is empty the loop stops anyway. -/
def collectPartsImpartible (partSize : Nat) (s : List Nat) : List (List Nat) :=
  collectPartsImpartibleFuel partSize s.length s

/-! ## The upload path decision (`src/uploader.rs:424-453`) -/

/-- Which upload path `start_uploading` commits to. -/
inductive UploadPath where
  | single
  | multipart
deriving DecidableEq

/-- Embedding of `UploadRequestBuilder::start_uploading`
(`src/uploader.rs:424-435`) for a source whose total size is statically
known: `total_size <= part_size` takes the form-upload (single-shot) path,
otherwise the resumable (multi-part) path. -/
def start_uploading_known (partSize totalSize : Nat) : UploadPath :=
  if totalSize ≤ partSize then UploadPath.single else UploadPath.multipart

/-- Embedding of `UploadRequestBuilder::start_uploading_reader`
(`src/uploader.rs:437-453`) for an unknown-length stream holding bytes
`stream`: peek up to `partSize + 1` bytes; if at most `partSize` bytes came
back the peeked buffer is form-uploaded, otherwise the multi-part path runs
over the peeked buffer chained with the unread remainder.  Returns the chosen
path together with the byte source that path consumes. -/
def start_uploading_reader (partSize : Nat) (stream : List Nat) :
    UploadPath × List Nat :=
  let firstChunk := stream.take (partSize + 1)
  if firstChunk.length ≤ partSize then (UploadPath.single, firstChunk)
  else (UploadPath.multipart, firstChunk ++ stream.drop (partSize + 1))

/-! ## UC query response handling (`src/query.rs:124-152, 200-243`) -/

/-- One region entry of the UC v4 query response body
(`src/query.rs:87-96`): its TTL in seconds and its `up.domains` list. -/
structure RegionResponseBody where
  ttl : Nat
  upDomains : List (List Char)
deriving DecidableEq

/-- A cache entry (`src/query.rs:76-80`): the cached response body and the
absolute cache deadline. -/
structure CacheValue where
  cachedResponseBody : List RegionResponseBody
  cacheDeadline : Nat
deriving DecidableEq

/-- Embedding of Rust's `Iterator::min` on a list of naturals. -/
def iter_min : List Nat → Option Nat
  | [] => none
  | t :: rest => some (rest.foldl Nat.min t)

/-- Outcome of handling a successfully decoded UC query response body in
`query_for_domains_without_cache` (`src/query.rs:231-242`): either a cache
value, or the panic raised by
`.min().expect("No host in uc query v4 response body")` when the decoded
body contains zero regions. -/
inductive UcQueryOutcome where
  | ok (value : CacheValue)
  | panicNoHost
deriving DecidableEq

/-- Embedding of the response-to-cache-value step of
`query_for_domains_without_cache` (`src/query.rs:231-242`): the cache
deadline is `now + min ttl` over all regions; zero regions panic. -/
def process_query_response (now : Nat) (hosts : List RegionResponseBody) :
    UcQueryOutcome :=
  match iter_min (hosts.map (fun h => h.ttl)) with
  | some minTtl => UcQueryOutcome.ok ⟨hosts, now + minTtl⟩
  | none => UcQueryOutcome.panicNoHost

/-- Whether a domain string contains the substring heralding a URL scheme
(Rust `domain.contains("://")`, `src/query.rs:144`). -/
def contains_scheme_sep : List Char → Bool
  | ':' :: '/' :: '/' :: _ => true
  | _ :: rest => contains_scheme_sep rest
  | [] => false

/-- Embedding of `normalize_domain` (`src/query.rs:143-151`). -/
def normalize_domain (domain : List Char) (useHttps : Bool) : List Char :=
  if contains_scheme_sep domain then domain
  else if useHttps then ['h', 't', 't', 'p', 's', ':', '/', '/'] ++ domain
  else ['h', 't', 't', 'p', ':', '/', '/'] ++ domain

/-- Embedding of the result construction of `HostsQuerier::query_for_up_urls`
(`src/query.rs:124-152`): `hosts.first().expect("No host in uc query v4
response body")` panics on an empty region list (modelled as `none`),
otherwise the first region's domains are normalized and returned. -/
def query_for_up_urls (hosts : List RegionResponseBody) (useHttps : Bool) :
    Option (List (List Char)) :=
  match hosts with
  | [] => none
  | first :: _ => some (first.upDomains.map (fun d => normalize_domain d useHttps))

/-! ## Cache-key serialization (`src/query.rs:40-74`) -/

/-- Embedding of `impl Serialize for CacheKey` (`src/query.rs:40-45`):
the single string token `format!("{}:{}", ak, bucket)`. -/
def serialize_cache_key (ak bucket : List Char) : List Char :=
  ak ++ ':' :: bucket

/-- Embedding of `value.splitn(2, ':')` followed by the two-`next` match of
`CacheKeyVisitor::visit_str` (`src/query.rs:57-66`): split at the first
colon; a string without a colon yields only one fragment and is rejected. -/
def splitn2_colon : List Char → Option (List Char × List Char)
  | [] => none
  | c :: rest =>
    if c = ':' then some ([], rest)
    else (splitn2_colon rest).map (fun p => (c :: p.1, p.2))

/-- Embedding of `Deserialize for CacheKey` on a string token. -/
def deserialize_cache_key (s : List Char) : Option (List Char × List Char) :=
  splitn2_colon s

/-! ## Helper lemmas -/

theorem foldl_min_eq_or_mem (as : List Nat) :
    ∀ a, List.foldl Nat.min a as = a ∨ List.foldl Nat.min a as ∈ as := by
  induction as with
  | nil => intro a; left; rfl
  | cons b bs ih =>
    intro a
    rcases ih (Nat.min a b) with h | h
    · rcases Nat.le_total a b with hab | hab
      · left; rw [List.foldl_cons, h]
        simp only [Nat.min_def]; split <;> omega
      · right; rw [List.foldl_cons, h]
        have hmin : Nat.min a b = b := by
          simp only [Nat.min_def]; split <;> omega
        rw [hmin]; exact List.mem_cons_self b bs
    · right; exact List.mem_cons_of_mem b h

theorem foldl_min_le (as : List Nat) :
    ∀ a, List.foldl Nat.min a as ≤ a ∧ ∀ t ∈ as, List.foldl Nat.min a as ≤ t := by
  induction as with
  | nil => intro a; exact ⟨Nat.le_refl a, fun t ht => absurd ht (List.not_mem_nil t)⟩
  | cons b bs ih =>
    intro a
    obtain ⟨h1, h2⟩ := ih (Nat.min a b)
    refine ⟨Nat.le_trans h1 (Nat.min_le_left a b), fun t ht => ?_⟩
    rcases List.mem_cons.mp ht with rfl | ht
    · exact Nat.le_trans h1 (Nat.min_le_right a t)
    · exact h2 t ht

theorem qwr_aux_all_fail {E T : Type} (attempt : Nat → Except E T)
    (punish : E → Bool) (errs : Nat → E) :
    ∀ rem made last, 1 ≤ rem →
      (∀ i, i < made + rem →
        attempt i = Except.error (errs i) ∧ punish (errs i) = true) →
      query_with_retry_aux attempt punish made rem last
        = RetryResult.failure (errs (made + rem - 1)) (made + rem) (made + rem) := by
  intro rem
  induction rem with
  | zero => intro made last h1 _; exact absurd h1 (by omega)
  | succ r ih =>
    intro made last _ h
    obtain ⟨ha, hp⟩ := h made (by omega)
    rcases Nat.eq_zero_or_pos r with hr | hr
    · subst hr
      simp [query_with_retry_aux, ha, hp]
    · have h1 : made + (r + 1) - 1 = made + 1 + r - 1 := by omega
      have h2 : made + (r + 1) = made + 1 + r := by omega
      rw [h1, h2]
      have hrec := ih (made + 1) (some (errs made)) hr (fun i hi => h i (by omega))
      simp [query_with_retry_aux, ha, hp, hrec]

theorem qwr_aux_nonpunishable {E T : Type} (attempt : Nat → Except E T)
    (punish : E → Bool) (e : E) :
    ∀ k made rem last, k < rem →
      (∀ i, i < k → ∃ e', attempt (made + i) = Except.error e' ∧ punish e' = true) →
      attempt (made + k) = Except.error e → punish e = false →
      query_with_retry_aux attempt punish made rem last
        = RetryResult.failure e (made + k + 1) (made + k + 1) := by
  intro k
  induction k with
  | zero =>
    intro made rem last hk _ hke hnp
    obtain ⟨r, rfl⟩ : ∃ r, rem = r + 1 := ⟨rem - 1, by omega⟩
    rw [Nat.add_zero] at hke
    simp [query_with_retry_aux, hke, hnp]
  | succ k ih =>
    intro made rem last hk hpre hke hnp
    obtain ⟨r, rfl⟩ : ∃ r, rem = r + 1 := ⟨rem - 1, by omega⟩
    obtain ⟨e0, he0, hp0⟩ := hpre 0 (by omega)
    rw [Nat.add_zero] at he0
    have hrec := ih (made + 1) r (some e0) (by omega)
      (fun i hi => by
        obtain ⟨e', h1, h2⟩ := hpre (i + 1) (by omega)
        exact ⟨e', by rw [show made + 1 + i = made + (i + 1) by omega]; exact h1, h2⟩)
      (by rw [show made + 1 + k = made + (k + 1) by omega]; exact hke) hnp
    have h1 : made + (k + 1) + 1 = made + 1 + k + 1 := by omega
    rw [h1]
    simp [query_with_retry_aux, he0, hp0, hrec]

theorem qwr_aux_no_panic {E T : Type} (attempt : Nat → Except E T)
    (punish : E → Bool) :
    ∀ rem made last, (Option.isSome last = true ∨ 1 ≤ rem) →
      query_with_retry_aux attempt punish made rem last
        ≠ RetryResult.noTriesPanic := by
  intro rem
  induction rem with
  | zero =>
    intro made last h
    cases last with
    | none => simp at h
    | some e => simp [query_with_retry_aux]
  | succ r ih =>
    intro made last _
    cases hA : attempt made with
    | ok v => simp [query_with_retry_aux, hA]
    | error e =>
      by_cases hp : punish e = true
      · have := ih (made + 1) (some e) (Or.inl rfl)
        simp [query_with_retry_aux, hA, hp, this]
      · simp [query_with_retry_aux, hA, hp]

/-! ## Claim theorems -/

/-- Claim C1, counterexample: the claim states that every error carrying one
of the distinguished higher-range codes is punishable, but the should-punish
callback returns `false` for status code 501 (it is in
`is_client_error_status`'s forced list, and the callback negates that
classification). -/
theorem special_code_501_not_punishable :
    should_punish_callback (HttpCallErrorShape.statusCodeError 501) = false := by
  decide

/-- Claim C1 (amended): the punish predicate treats each of the distinguished
higher-range status codes 501, 573, 608, 612, 614, 616, 619, 630, 631, 640
and 701 as NON-punishable: for every error carrying one of these codes the
should-punish callback returns `false` (they are folded into the
client-error classification, not forced punishable). -/
theorem special_codes_not_punishable :
    ∀ code, code ∈ special_status_codes →
      should_punish_callback (HttpCallErrorShape.statusCodeError code) = false := by
  decide

/-- Witness for C1 (amended) at code 573. -/
theorem special_codes_not_punishable_witness :
    should_punish_callback (HttpCallErrorShape.statusCodeError 573) = false :=
  special_codes_not_punishable 573 (by decide)

set_option maxRecDepth 4000 in
/-- Claim C6: status codes in the 4xx class are non-punishable (the callback
returns `false`), with exactly one exception: 406 is punishable despite being
in that class. -/
theorem client_error_nonpunishable_except_406 :
    (∀ code, code < 500 → 400 ≤ code → code ≠ 406 →
      should_punish_callback (HttpCallErrorShape.statusCodeError code) = false)
    ∧ should_punish_callback (HttpCallErrorShape.statusCodeError 406) = true := by
  constructor
  · decide
  · decide

/-- Witness for C6 at code 404. -/
theorem client_error_nonpunishable_except_406_witness :
    should_punish_callback (HttpCallErrorShape.statusCodeError 404) = false :=
  client_error_nonpunishable_except_406.1 404 (by decide) (by decide) (by decide)

/-- Claim C2: with `tries = N` and every attempt failing punishably, the
retry loop makes exactly `N` attempts (calling punish after each of the `N`
failures) and returns the error of the `N`-th attempt. -/
theorem query_with_retry_all_punishable {E T : Type} (N : Nat) (hN : 1 ≤ N)
    (attempt : Nat → Except E T) (punish : E → Bool) (errs : Nat → E)
    (hfail : ∀ i, i < N → attempt i = Except.error (errs i))
    (hpunish : ∀ i, i < N → punish (errs i) = true) :
    query_with_retry N attempt punish
      = RetryResult.failure (errs (N - 1)) N N := by
  have h := qwr_aux_all_fail attempt punish errs N 0 none hN
    (fun i hi => ⟨hfail i (by omega), hpunish i (by omega)⟩)
  simpa [query_with_retry] using h

/-- Witness for C2 with `N = 2`. -/
theorem query_with_retry_all_punishable_witness :
    query_with_retry 2 (fun i => (Except.error i : Except Nat Unit))
      (fun _ => true) = RetryResult.failure 1 2 2 :=
  query_with_retry_all_punishable 2 (by decide) _ _ (fun i => i)
    (fun _ _ => rfl) (fun _ _ => rfl)

/-- Claim C3: when attempt `k` fails with a non-punishable error (after a
prefix of punishable failures), the retry loop returns that error immediately
after `k + 1` attempts; in particular a non-punishable failure on the very
first attempt (`k = 0`) ends the loop after exactly 1 attempt regardless of
the configured `tries`. -/
theorem query_with_retry_nonpunishable_stops {E T : Type} (tries k : Nat)
    (hk : k < tries) (attempt : Nat → Except E T) (punish : E → Bool) (e : E)
    (hpre : ∀ i, i < k → ∃ e', attempt i = Except.error e' ∧ punish e' = true)
    (hke : attempt k = Except.error e) (hnp : punish e = false) :
    query_with_retry tries attempt punish
      = RetryResult.failure e (k + 1) (k + 1) := by
  have h := qwr_aux_nonpunishable attempt punish e k 0 tries none hk
    (fun i hi => by simpa using hpre i hi) (by simpa using hke) hnp
  simpa [query_with_retry] using h

/-- Witness for C3: a non-punishable failure on the first of 5 tries. -/
theorem query_with_retry_nonpunishable_stops_witness :
    query_with_retry 5 (fun _ => (Except.error 0 : Except Nat Unit))
      (fun _ => false) = RetryResult.failure 0 1 1 :=
  query_with_retry_nonpunishable_stops 5 0 (by decide) _ _ 0
    (fun i hi => absurd hi (Nat.not_lt_zero i)) rfl rfl

/-- Claim C9: for `tries ≥ 1` the retry loop never reaches the
`expect("No UC tries error")` panic (it returns a success or the last
recorded error), while for `tries = 0` the loop body never runs and the
function panics instead of returning an error value. -/
theorem query_with_retry_panic_behavior {E T : Type} (tries : Nat)
    (attempt : Nat → Except E T) (punish : E → Bool) :
    (1 ≤ tries →
      query_with_retry tries attempt punish ≠ RetryResult.noTriesPanic)
    ∧ query_with_retry 0 attempt punish = RetryResult.noTriesPanic := by
  constructor
  · intro h
    exact qwr_aux_no_panic attempt punish tries 0 none (Or.inr h)
  · rfl

/-- Witness for C9 with `tries = 1`. -/
theorem query_with_retry_panic_behavior_witness :
    query_with_retry 1 (fun _ => (Except.ok 0 : Except Nat Nat))
      (fun _ => true) ≠ RetryResult.noTriesPanic :=
  (query_with_retry_panic_behavior 1 _ _).1 (by decide)

/-- Claim C7, counterexample: a successfully decoded response with zero
regions does not produce an error value returned to the caller; the code
panics at `.min().expect("No host in uc query v4 response body")`
(modelled by the `panicNoHost` outcome). -/
theorem zero_regions_panics :
    process_query_response 0 [] = UcQueryOutcome.panicNoHost := by
  rfl

/-- Claim C7 (amended): a discovery response containing zero regions causes a
panic (the `"No host in uc query v4 response body"` expect), not an error
value returned to the caller — so it is still neither treated as a cache
miss nor allowed to quietly produce an empty upload-host list; for a response
with at least one region, the cached entry's deadline is `now + m` where `m`
is the minimum TTL across all regions. -/
theorem process_query_response_min_ttl (now : Nat)
    (hosts : List RegionResponseBody) (hne : hosts ≠ []) :
    process_query_response now ([] : List RegionResponseBody)
        = UcQueryOutcome.panicNoHost
    ∧ ∃ m, m ∈ hosts.map (fun h => h.ttl)
        ∧ (∀ t ∈ hosts.map (fun h => h.ttl), m ≤ t)
        ∧ process_query_response now hosts = UcQueryOutcome.ok ⟨hosts, now + m⟩ := by
  refine ⟨rfl, ?_⟩
  obtain ⟨h0, tl, rfl⟩ : ∃ h0 tl, hosts = h0 :: tl := by
    cases hosts with
    | nil => exact absurd rfl hne
    | cons h0 tl => exact ⟨h0, tl, rfl⟩
  refine ⟨List.foldl Nat.min h0.ttl (tl.map (fun h => h.ttl)), ?_, ?_, ?_⟩
  · rcases foldl_min_eq_or_mem (tl.map (fun h => h.ttl)) h0.ttl with h | h
    · rw [h]; exact List.mem_cons_self _ _
    · exact List.mem_cons_of_mem _ h
  · intro t ht
    obtain ⟨h1, h2⟩ := foldl_min_le (tl.map (fun h => h.ttl)) h0.ttl
    rcases List.mem_cons.mp ht with rfl | ht
    · exact h1
    · exact h2 t ht
  · simp [process_query_response, iter_min]

/-- Witness for C7 (amended) with two regions of TTLs 10 and 3. -/
theorem process_query_response_min_ttl_witness :
    process_query_response 5 ([] : List RegionResponseBody)
        = UcQueryOutcome.panicNoHost
    ∧ ∃ m, m ∈ ([⟨10, [['a']]⟩, ⟨3, []⟩] :
          List RegionResponseBody).map (fun h => h.ttl)
        ∧ (∀ t ∈ ([⟨10, [['a']]⟩, ⟨3, []⟩] :
              List RegionResponseBody).map (fun h => h.ttl), m ≤ t)
        ∧ process_query_response 5 [⟨10, [['a']]⟩, ⟨3, []⟩]
            = UcQueryOutcome.ok ⟨[⟨10, [['a']]⟩, ⟨3, []⟩], 5 + m⟩ :=
  process_query_response_min_ttl 5 [⟨10, [['a']]⟩, ⟨3, []⟩] (by decide)

/-- Claim C8, counterexample: serializing the cache key with access key
`"a:b"` and bucket `"c"` and deserializing the token yields
`("a", "b:c")`, not the original pair — serialize-then-deserialize is not
the identity on every (access key, bucket) pair. -/
theorem cache_key_roundtrip_fails_with_colon :
    deserialize_cache_key (serialize_cache_key ['a', ':', 'b'] ['c'])
        = some (['a'], ['b', ':', 'c'])
    ∧ deserialize_cache_key (serialize_cache_key ['a', ':', 'b'] ['c'])
        ≠ some (['a', ':', 'b'], ['c']) := by
  decide

/-- Claim C8 (amended): for every cache key whose access key contains no
colon character, deserializing the serialized token yields back exactly the
original (access key, bucket) pair; the bucket name may contain colons. -/
theorem cache_key_roundtrip (ak bucket : List Char) (hak : ':' ∉ ak) :
    deserialize_cache_key (serialize_cache_key ak bucket) = some (ak, bucket) := by
  induction ak with
  | nil => rfl
  | cons c ak' ih =>
    have hc : ¬(c = ':') := fun h => hak (h ▸ List.mem_cons_self c ak')
    have hak' : ':' ∉ ak' := fun h => hak (List.mem_cons_of_mem c h)
    have hstep : deserialize_cache_key (serialize_cache_key (c :: ak') bucket)
        = (deserialize_cache_key (serialize_cache_key ak' bucket)).map
            (fun p => (c :: p.1, p.2)) := by
      show splitn2_colon (c :: (ak' ++ ':' :: bucket)) = _
      simp only [splitn2_colon, if_neg hc]
      rfl
    rw [hstep, ih hak']
    rfl

/-- Witness for C8 (amended) at access key `"a"`, bucket `"b:c"`. -/
theorem cache_key_roundtrip_witness :
    deserialize_cache_key (serialize_cache_key ['a'] ['b', ':', 'c'])
      = some (['a'], ['b', ':', 'c']) :=
  cache_key_roundtrip ['a'] ['b', ':', 'c'] (by decide)

/-- Claim C10: for every response with two or more regions,
`query_for_up_urls` returns exactly the normalized domains of the first
region — the result coincides with the result on the response truncated to
its first region, so every later region's domain list is ignored. -/
theorem query_for_up_urls_first_region_only (first second : RegionResponseBody)
    (rest : List RegionResponseBody) (useHttps : Bool) :
    query_for_up_urls (first :: second :: rest) useHttps
        = some (first.upDomains.map (fun d => normalize_domain d useHttps))
    ∧ query_for_up_urls (first :: second :: rest) useHttps
        = query_for_up_urls [first] useHttps :=
  ⟨rfl, rfl⟩

theorem collectPartsFuel_eq (P S : Nat) (hP : 0 < P) :
    ∀ fuel offset, S - offset ≤ fuel →
      collectPartsFuel P S fuel offset
        = (List.range ((S - offset + P - 1) / P)).map
            (fun i => (offset + i * P, P)) := by
  intro fuel
  induction fuel with
  | zero =>
    intro offset h
    have h0 : S - offset = 0 := by omega
    rw [h0]
    have hz : (0 + P - 1) / P = 0 := Nat.div_eq_of_lt (by omega)
    rw [hz]
    rfl
  | succ fuel ih =>
    intro offset h
    by_cases hlt : offset < S
    · have hstep : collectPartsFuel P S (fuel + 1) offset
          = (offset, P) :: collectPartsFuel P S fuel (offset + P) := by
        simp [collectPartsFuel, next_part_reader, hlt]
      rw [hstep, ih (offset + P) (by omega)]
      have hmEq : (S - offset + P - 1) / P = (S - (offset + P) + P - 1) / P + 1 := by
        have hn : 1 ≤ S - offset := by omega
        have e1 : S - offset + P - 1 = (S - offset - 1) + P := by omega
        rw [e1, Nat.add_div_right _ hP]
        rcases Nat.le_total (S - offset) P with hle | hge
        · have e2 : S - (offset + P) = 0 := by omega
          rw [e2]
          have h1 : (0 + P - 1) / P = 0 := Nat.div_eq_of_lt (by omega)
          have h2 : (S - offset - 1) / P = 0 := Nat.div_eq_of_lt (by omega)
          rw [h1, h2]
        · have e2 : S - (offset + P) + P - 1 = S - offset - 1 := by omega
          rw [e2]
      rw [hmEq, List.range_succ_eq_map, List.map_cons, List.map_map]
      congr 1
      · simp
      · refine List.map_congr_left (fun i _ => ?_)
        have hsm : Nat.succ i * P = i * P + P := Nat.succ_mul i P
        simp only [Function.comp]
        rw [Prod.mk.injEq]
        exact ⟨by omega, rfl⟩
    · have h0 : S - offset = 0 := by omega
      have hdone : collectPartsFuel P S (fuel + 1) offset = [] := by
        simp [collectPartsFuel, next_part_reader, hlt]
      rw [hdone, h0]
      have hz : (0 + P - 1) / P = 0 := Nat.div_eq_of_lt (by omega)
      rw [hz]
      rfl

theorem chunks_flatten (P : Nat) (hP : 0 < P) :
    ∀ n (bs : List Nat), bs.length = n →
      ((List.range ((bs.length + P - 1) / P)).map
          (fun i => (bs.drop (i * P)).take P)).flatten = bs := by
  intro n
  induction n using Nat.strong_induction_on with
  | _ n ih =>
    intro bs hbs
    by_cases hbs0 : bs = []
    · subst hbs0
      have hz : (0 + P - 1) / P = 0 := Nat.div_eq_of_lt (by omega)
      simp [hz]
    · have hL1 : 1 ≤ bs.length := List.length_pos.mpr hbs0
      have hm : (bs.length + P - 1) / P = (bs.length - 1) / P + 1 := by
        have e1 : bs.length + P - 1 = (bs.length - 1) + P := by omega
        rw [e1, Nat.add_div_right _ hP]
      rw [hm, List.range_succ_eq_map, List.map_cons, List.map_map,
        List.flatten_cons]
      have hhead : (bs.drop (0 * P)).take P = bs.take P := by simp
      rw [hhead]
      have htail : ((List.range ((bs.length - 1) / P)).map
            ((fun i => (bs.drop (i * P)).take P) ∘ Nat.succ))
          = (List.range (((bs.drop P).length + P - 1) / P)).map
              (fun i => ((bs.drop P).drop (i * P)).take P) := by
        have hk : (bs.length - 1) / P = ((bs.drop P).length + P - 1) / P := by
          rw [List.length_drop]
          rcases Nat.le_total bs.length P with hle | hge
          · have e2 : bs.length - P = 0 := by omega
            rw [e2]
            have h1 : (0 + P - 1) / P = 0 := Nat.div_eq_of_lt (by omega)
            have h2 : (bs.length - 1) / P = 0 := Nat.div_eq_of_lt (by omega)
            rw [h1, h2]
          · have e2 : bs.length - P + P - 1 = bs.length - 1 := by omega
            rw [e2]
        rw [hk]
        refine List.map_congr_left (fun i _ => ?_)
        simp only [Function.comp]
        have hsm : Nat.succ i * P = P + i * P := by
          rw [Nat.succ_mul]; omega
        rw [hsm, ← List.drop_drop]
      rw [htail, ih (bs.drop P).length (by simp [List.length_drop]; omega)
        (bs.drop P) rfl, List.take_append_drop]

theorem collectPartsImpartibleFuel_nil (P : Nat) :
    ∀ fuel, collectPartsImpartibleFuel P fuel [] = [] := by
  intro fuel
  cases fuel <;> simp [collectPartsImpartibleFuel]

theorem collectPartsImpartibleFuel_step (P fuel : Nat) (s : List Nat)
    (hne : s ≠ []) (hP : 0 < P) :
    collectPartsImpartibleFuel P (fuel + 1) s
      = s.take P :: collectPartsImpartibleFuel P fuel (s.drop P) := by
  have hemp : ¬(s.take P).isEmpty = true := by
    cases s with
    | nil => exact absurd rfl hne
    | cons a t =>
      cases P with
      | zero => exact absurd hP (Nat.lt_irrefl 0)
      | succ q => simp [List.take]
  simp [collectPartsImpartibleFuel, hemp]

theorem collectPartsImpartible_two_parts (P : Nat) (hP : 0 < P)
    (s : List Nat) (hs : s.length = P + 1) :
    collectPartsImpartible P s = [s.take P, s.drop P] := by
  have hne : s ≠ [] := by
    intro h; rw [h] at hs; simp at hs
  show collectPartsImpartibleFuel P s.length s = _
  rw [hs]
  rw [collectPartsImpartibleFuel_step P P s hne hP]
  have hd : (s.drop P).length = 1 := by
    rw [List.length_drop, hs]; omega
  have hdne : s.drop P ≠ [] := by
    intro h; rw [h] at hd; simp at hd
  obtain ⟨P', rfl⟩ : ∃ P', P = P' + 1 := ⟨P - 1, by omega⟩
  rw [collectPartsImpartibleFuel_step (P' + 1) P' (s.drop (P' + 1)) hdne hP]
  have e1 : List.take (P' + 1) (List.drop (P' + 1) s) = List.drop (P' + 1) s :=
    List.take_of_length_le (by omega)
  have e2 : List.drop (P' + 1) (List.drop (P' + 1) s) = [] :=
    List.drop_eq_nil_of_le (by omega)
  rw [e1, e2, collectPartsImpartibleFuel_nil]

theorem min_part_len (P S q r i : Nat) (hP : 0 < P)
    (hq : P * q + r = S - 1) (hr : r < P) (hi : i < q + 1) :
    P ⊓ (S - i * P) = if i + 1 = q + 1 then S - P * (q + 1 - 1) else P := by
  by_cases hlast : i + 1 = q + 1
  · rw [if_pos hlast]
    have hiq : i = q := by omega
    subst hiq
    have hc : P * i = i * P := Nat.mul_comm P i
    have hle : S - i * P ≤ P := by omega
    rw [min_eq_right hle]
    have e3 : i + 1 - 1 = i := by omega
    rw [e3]
    omega
  · rw [if_neg hlast]
    have hiq : i < q := by omega
    have hmul1 : (i + 1) * P ≤ q * P := Nat.mul_le_mul_right P (by omega)
    have hsm : (i + 1) * P = i * P + P := Nat.succ_mul i P
    have hc : P * q = q * P := Nat.mul_comm P q
    have hge : P ≤ S - i * P := by omega
    exact min_eq_left hge

/-- Claim C4: for a partible source of size `S` and part size `P > 0`,
repeated `next_part_reader` calls yield exactly `⌈S/P⌉` parts (none when
`S = 0`), the `i`-th (0-based) part starting at `i * P` with requested
length `P`; streaming the parts yields `P` bytes each except the last,
which yields `S - P * (⌈S/P⌉ - 1)` bytes, and the concatenation of all
parts' bytes is exactly the source's bytes with no gaps or overlaps. -/
theorem next_part_reader_partition (P S : Nat) (hP : 0 < P)
    (bs : List Nat) (hlen : bs.length = S) :
    collectParts P S 0
        = (List.range ((S + P - 1) / P)).map (fun i => (i * P, P))
    ∧ (S = 0 → collectParts P S 0 = [])
    ∧ ((collectParts P S 0).map (part_reader_bytes bs)).flatten = bs
    ∧ (collectParts P S 0).map (fun p => (part_reader_bytes bs p).length)
        = (List.range ((S + P - 1) / P)).map
            (fun i => if i + 1 = (S + P - 1) / P
              then S - P * ((S + P - 1) / P - 1) else P) := by
  have hmain : collectParts P S 0
      = (List.range ((S + P - 1) / P)).map (fun i => (i * P, P)) := by
    have h := collectPartsFuel_eq P S hP (S - 0) 0 (by omega)
    simpa [collectParts] using h
  refine ⟨hmain, ?_, ?_, ?_⟩
  · intro h0
    subst h0
    rw [hmain]
    have hz : (0 + P - 1) / P = 0 := Nat.div_eq_of_lt (by omega)
    rw [hz]
    rfl
  · rw [hmain, List.map_map]
    have hcomp : (part_reader_bytes bs ∘ fun i => (i * P, P))
        = fun i => (bs.drop (i * P)).take P := rfl
    rw [hcomp, ← hlen]
    exact chunks_flatten P hP bs.length bs rfl
  · rw [hmain, List.map_map]
    refine List.map_congr_left (fun i hi => ?_)
    rw [List.mem_range] at hi
    have hS1 : 1 ≤ S := by
      by_contra hS0
      have hS0' : S = 0 := by omega
      subst hS0'
      have hz : (0 + P - 1) / P = 0 := Nat.div_eq_of_lt (by omega)
      rw [hz] at hi
      omega
    have hm : (S + P - 1) / P = (S - 1) / P + 1 := by
      have e1 : S + P - 1 = (S - 1) + P := by omega
      rw [e1, Nat.add_div_right _ hP]
    show ((bs.drop (i * P)).take P).length
        = if i + 1 = (S + P - 1) / P then S - P * ((S + P - 1) / P - 1) else P
    rw [List.length_take, List.length_drop, hlen, hm]
    rw [hm] at hi
    exact min_part_len P S ((S - 1) / P) ((S - 1) % P) i hP
      (Nat.div_add_mod (S - 1) P) (Nat.mod_lt _ hP) hi

/-- Witness for C4 with `P = 2`, `S = 5`, source bytes `[0, 1, 2, 3, 4]`. -/
theorem next_part_reader_partition_witness :
    collectParts 2 5 0
        = (List.range ((5 + 2 - 1) / 2)).map (fun i => (i * 2, 2))
    ∧ ((5 : Nat) = 0 → collectParts 2 5 0 = [])
    ∧ ((collectParts 2 5 0).map
        (part_reader_bytes [0, 1, 2, 3, 4])).flatten = [0, 1, 2, 3, 4]
    ∧ (collectParts 2 5 0).map
          (fun p => (part_reader_bytes [0, 1, 2, 3, 4] p).length)
        = (List.range ((5 + 2 - 1) / 2)).map
            (fun i => if i + 1 = (5 + 2 - 1) / 2
              then 5 - 2 * ((5 + 2 - 1) / 2 - 1) else 2) :=
  next_part_reader_partition 2 5 (by decide) [0, 1, 2, 3, 4] (by decide)

/-- Claim C5: a source of exactly `partSize` bytes takes the single-shot
(form upload) path and a source of `partSize + 1` bytes takes the multi-part
path with exactly 2 parts, both when the size is statically known (partible
partitioning) and when it is discovered by peeking `partSize + 1` bytes from
an unknown-length stream (impartible partitioning over the reconstructed
stream, which loses no bytes). -/
theorem upload_path_boundary (P : Nat) (hP : 0 < P) (s₁ s₂ : List Nat)
    (h₁ : s₁.length = P) (h₂ : s₂.length = P + 1) :
    start_uploading_known P P = UploadPath.single
    ∧ start_uploading_known P (P + 1) = UploadPath.multipart
    ∧ (collectParts P (P + 1) 0).length = 2
    ∧ start_uploading_reader P s₁ = (UploadPath.single, s₁)
    ∧ start_uploading_reader P s₂ = (UploadPath.multipart, s₂)
    ∧ collectPartsImpartible P s₂ = [s₂.take P, s₂.drop P]
    ∧ (collectPartsImpartible P s₂).length = 2 := by
  refine ⟨?_, ?_, ?_, ?_, ?_, ?_, ?_⟩
  · simp [start_uploading_known]
  · simp only [start_uploading_known]
    rw [if_neg (by omega)]
  · have hc : collectParts P (P + 1) 0
        = (List.range ((P + 1 + P - 1) / P)).map (fun i => (0 + i * P, P)) := by
      have h := collectPartsFuel_eq P (P + 1) hP (P + 1 - 0) 0 (by omega)
      simpa [collectParts] using h
    rw [hc, List.length_map, List.length_range]
    have e1 : P + 1 + P - 1 = 2 * P := by omega
    rw [e1, Nat.mul_div_cancel 2 hP]
  · have ht : s₁.take (P + 1) = s₁ := List.take_of_length_le (by omega)
    simp only [start_uploading_reader, ht]
    rw [if_pos (by omega)]
  · have ht : s₂.take (P + 1) = s₂ := List.take_of_length_le (by omega)
    have hd : s₂.drop (P + 1) = [] := List.drop_eq_nil_of_le (by omega)
    simp only [start_uploading_reader, ht, hd]
    rw [if_neg (by omega)]
    rw [List.append_nil]
  · exact collectPartsImpartible_two_parts P hP s₂ h₂
  · rw [collectPartsImpartible_two_parts P hP s₂ h₂]
    rfl

/-- Witness for C5 with `P = 1`, known sizes 1 and 2, streams `[7]` and
`[7, 8]`. -/
theorem upload_path_boundary_witness :
    start_uploading_known 1 1 = UploadPath.single
    ∧ start_uploading_known 1 (1 + 1) = UploadPath.multipart
    ∧ (collectParts 1 (1 + 1) 0).length = 2
    ∧ start_uploading_reader 1 [7] = (UploadPath.single, [7])
    ∧ start_uploading_reader 1 [7, 8] = (UploadPath.multipart, [7, 8])
    ∧ collectPartsImpartible 1 [7, 8] = [List.take 1 [7, 8], List.drop 1 [7, 8]]
    ∧ (collectPartsImpartible 1 [7, 8]).length = 2 :=
  upload_path_boundary 1 (by decide) [7] [7, 8] (by decide) (by decide)
